/-
  Verification development for the hex-terrain procedural terrain system
  (a Rust/Bevy application built on the hexx hexagonal-grid library).

  Shallow-embedding conventions used throughout this file:

  * f32/f64 arithmetic is modelled as exact rational arithmetic over ℚ.
    Compile-time float constants (the √3-derived entries of the hex layout
    matrices) are embedded as the exact rational values of their f32
    representations, so the embedded layout computes with the same constants
    the compiled program does, only without intermediate rounding.
  * HashMap<Hex, f32> is modelled as an association list queried with a
    first-match lookup.
  * Entity spawning (Bevy Commands) has no effect we track other than which
    geometry descriptors get created; spawn functions therefore return the
    list/collection of descriptors they create, and the progressive reveal
    is a pure fold over the enumerated hexagon region.
  * Library internals of hexx that are not part of this repository
    (layout matrices, axial rounding, neighbor tables, grid-vertex
    canonicalization) are modelled from their documented behavior and from
    the specification's description of them; each such definition carries a
    doc comment saying so.
-/
import Mathlib

/-- Axial hex coordinate, mirroring hexx's Hex with i32 fields x and y. -/
structure Hex where
  x : ℤ
  y : ℤ
deriving DecidableEq, Repr

/-- Componentwise sum of two hex coordinates (hexx's Add impl for Hex). -/
def Hex.addHex (a b : Hex) : Hex :=
  ⟨a.x + b.x, a.y + b.y⟩

/-- 2D vector with exact rational components (models Bevy's Vec2). -/
structure Vec2 where
  x : ℚ
  y : ℚ
deriving DecidableEq, Repr

/-- 3D vector with exact rational components (models Bevy's Vec3). -/
structure Vec3 where
  x : ℚ
  y : ℚ
  z : ℚ
deriving DecidableEq, Repr

/-- Componentwise difference of two Vec3 values. -/
def Vec3.sub (a b : Vec3) : Vec3 :=
  ⟨a.x - b.x, a.y - b.y, a.z - b.z⟩

/-- Midpoint of two Vec3 values, as computed by (from + to) / 2.0. -/
def Vec3.midpoint (a b : Vec3) : Vec3 :=
  ⟨(a.x + b.x) / 2, (a.y + b.y) / 2, (a.z + b.z) / 2⟩

/-- Squared Euclidean norm of a Vec3.  The embedded code compares lengths
against thresholds; since both sides are nonnegative we compare squared
norms against squared thresholds, which keeps everything inside ℚ. -/
def Vec3.normSq (v : Vec3) : ℚ :=
  v.x * v.x + v.y * v.y + v.z * v.z

/-- Modelled from the spec: exact rational value of the f32 constant hexx
uses for √3 (the literal 1.732_050_8f32, i.e. 14529495 · 2⁻²³). -/
def sqrt3f : ℚ := 14529495 / 8388608

/-- Forward-matrix entry [0][0] of the pointy-top hex orientation: √3 as f32. -/
def fwd0 : ℚ := sqrt3f

/-- Forward-matrix entry [0][1]: the f32 value of √3 / 2 (exact halving). -/
def fwd1 : ℚ := 14529495 / 16777216

/-- Forward-matrix entry [1][0]: zero. -/
def fwd2 : ℚ := 0

/-- Forward-matrix entry [1][1]: 3/2, exact in f32. -/
def fwd3 : ℚ := 3 / 2

/-- Inverse-matrix entry [0][0]: the f32 value of √3 / 3. -/
def inv0 : ℚ := 4843165 / 8388608

/-- Inverse-matrix entry [0][1]: the f32 value of −1/3. -/
def inv1 : ℚ := -11184811 / 33554432

/-- Inverse-matrix entry [1][0]: zero. -/
def inv2 : ℚ := 0

/-- Inverse-matrix entry [1][1]: the f32 value of 2/3. -/
def inv3 : ℚ := 11184811 / 16777216

/-- Modelled from the spec: hexx HexLayout::hex_to_world_pos for a layout
with uniform scale s, pointy-top orientation, and origin zero — the world
position is the forward matrix applied to the axial coordinates, scaled. -/
def hexToWorldPos (s : ℚ) (h : Hex) : Vec2 :=
  ⟨s * (fwd0 * h.x + fwd1 * h.y), s * (fwd2 * h.x + fwd3 * h.y)⟩

/-- f32::round(): round half away from zero, on exact rationals. -/
def roundAway (q : ℚ) : ℤ :=
  if 0 ≤ q then ⌊q + 1 / 2⌋ else -⌊-q + 1 / 2⌋

/-- Modelled from the spec: hexx Hex::round — axial rounding of fractional
hex coordinates.  Round each axis, then correct the axis with the larger
remainder by the rounded combination of both remainders. -/
def hexRound (x y : ℚ) : Hex :=
  let xr := roundAway x
  let yr := roundAway y
  let xm := x - xr
  let ym := y - yr
  if ym * ym ≤ xm * xm then
    ⟨xr + roundAway (ym / 2 + xm), yr⟩
  else
    ⟨xr, yr + roundAway (xm / 2 + ym)⟩

/-- Modelled from the spec: hexx HexLayout::world_pos_to_hex — divide by the
layout scale, apply the inverse orientation matrix, and round to the
nearest hex. -/
def worldPosToHex (s : ℚ) (p : Vec2) : Hex :=
  hexRound (inv0 * (p.x / s) + inv1 * (p.y / s)) (inv2 * (p.x / s) + inv3 * (p.y / s))

/-- Modelled from the spec: hexx Hex::NEIGHBORS_COORDS, the six axial unit
offsets to a hex's neighbors, indexed by edge direction. -/
def dirOffset : Fin 6 → Hex
  | 0 => ⟨1, -1⟩
  | 1 => ⟨0, -1⟩
  | 2 => ⟨-1, 0⟩
  | 3 => ⟨-1, 1⟩
  | 4 => ⟨0, 1⟩
  | 5 => ⟨1, 0⟩

/-- The neighbor of a hex across edge direction e (hexx Hex::neighbor). -/
def neighborHex (h : Hex) (e : Fin 6) : Hex :=
  h.addHex (dirOffset e)

/-- The corner/edge indices 0..5 in order, as iterated by the source's
fixed six-element arrays and 0..6u8 loops. -/
def idx6 : List (Fin 6) := [0, 1, 2, 3, 4, 5]

/-- All six neighbors in direction order (hexx Hex::all_neighbors). -/
def allNeighbors (h : Hex) : List Hex :=
  idx6.map (neighborHex h)

/-- Modelled from the spec: hexx shapes::hexagon(center, radius) — every hex
within hex-distance radius of the center, enumerated column by column. -/
def hexagonList (c : Hex) (radius : ℕ) : List Hex :=
  (List.range (2 * radius + 1)).flatMap fun i =>
    (List.range ((min (radius : ℤ) (-((i : ℤ) - radius) + radius) + 1 -
        max (-(radius : ℤ)) (-((i : ℤ) - radius) - radius)).toNat)).map fun j : ℕ =>
      ⟨c.x + ((i : ℤ) - radius),
       c.y + max (-(radius : ℤ)) (-((i : ℤ) - radius) - radius) + (j : ℤ)⟩

/-- math::map_noise_to_range — linear remap of a noise value from [-1, 1]
into [min, max]. -/
def mapNoiseToRange (noiseVal mn mx : ℚ) : ℚ :=
  mn + ((noiseVal + 1) / 2) * (mx - mn)

/-- C8: for all min and max, map_noise_to_range is exact at the boundaries —
noise −1 yields min, noise 1 yields max, and noise 0 yields the midpoint
(min + max) / 2. -/
theorem map_noise_to_range_boundary_exact (mn mx : ℚ) :
    mapNoiseToRange (-1) mn mx = mn ∧
    mapNoiseToRange 1 mn mx = mx ∧
    mapNoiseToRange 0 mn mx = (mn + mx) / 2 := by
  refine ⟨?_, ?_, ?_⟩ <;> · unfold mapNoiseToRange; ring

/-- First-match association-list lookup, modelling HashMap::get on the
per-hex data maps (keys are inserted at most once, so first match is the
match). -/
def mapGet : List (Hex × ℚ) → Hex → Option ℚ
  | [], _ => none
  | (k, v) :: rest, h => if k = h then some v else mapGet rest h

/-- Modelled from the spec: the six corner offsets of a unit-scale
pointy-top hexagon centered at the origin (hexx
HexLayout::center_aligned_hex_corners for scale 1), with √3/2 embedded as
its exact f32 value.  The corner ordering matches the vertex-direction
indexing; none of the verified properties depend on which corner carries
which index. -/
def unitCorner : Fin 6 → Vec2
  | 0 => ⟨14529495 / 16777216, -1 / 2⟩
  | 1 => ⟨0, -1⟩
  | 2 => ⟨-14529495 / 16777216, -1 / 2⟩
  | 3 => ⟨-14529495 / 16777216, 1 / 2⟩
  | 4 => ⟨0, 1⟩
  | 5 => ⟨14529495 / 16777216, 1 / 2⟩

/-- Model of TerrainHexLayout: the layout scale plus the per-hex height and
radius maps sampled at startup.  Vertices are not stored; they are computed
on demand exactly as in the source. -/
structure TerrainData where
  scale : ℚ
  heights : List (Hex × ℚ)
  radii : List (Hex × ℚ)

/-- TerrainHexLayout::vertex — world-space corner position of hex h at
corner index i: center + unit_corners[i] * radius, at the hex's height;
none when the hex is absent from either map. -/
def vertexM (t : TerrainData) (h : Hex) (i : Fin 6) : Option Vec3 :=
  match mapGet t.heights h, mapGet t.radii h with
  | some height, some radius =>
    let center := hexToWorldPos t.scale h
    some ⟨center.x + (unitCorner i).x * radius, height,
          center.y + (unitCorner i).y * radius⟩
  | _, _ => none

/-- Squared planar distance between a query point and a vertex position,
as computed inside interpolate_height (dx·dx + dz·dz). -/
def distSq (pos : Vec2) (v : Vec3) : ℚ :=
  let dx := pos.x - v.x
  let dz := pos.y - v.z
  dx * dx + dz * dz

/-- The (hex, corner) pairs scanned by interpolate_height: the hex
containing the query point followed by its six neighbors, each with corners
0..5 in order. -/
def idwCandidates (t : TerrainData) (pos : Vec2) : List (Hex × Fin 6) :=
  let hex := worldPosToHex t.scale pos
  (hex :: allNeighbors hex).flatMap fun h => idx6.map fun i => (h, i)

/-- The accumulation loop of interpolate_height: for each candidate vertex
that exists, either return its height immediately (squared distance below
1e-3) or add height·weight and weight to the running sums, weight being
1/dist².  Sum.inl is the early return, Sum.inr the final accumulators. -/
def idwLoop (t : TerrainData) (pos : Vec2) :
    List (Hex × Fin 6) → ℚ → ℚ → ℚ ⊕ (ℚ × ℚ)
  | [], wsum, wtot => Sum.inr (wsum, wtot)
  | (h, i) :: rest, wsum, wtot =>
    match vertexM t h i with
    | none => idwLoop t pos rest wsum wtot
    | some vpos =>
      let d2 := distSq pos vpos
      if d2 < 1 / 1000 then Sum.inl vpos.y
      else idwLoop t pos rest (wsum + vpos.y * (1 / d2)) (wtot + 1 / d2)

/-- TerrainHexLayout::interpolate_height — inverse-distance-weighted height
interpolation from the vertices of the containing hex and its six
neighbors, with an early return at near-vertex hits, a quotient of the
accumulated sums when any vertex was found, and a fallback to the
containing hex's stored height (or 0) otherwise. -/
def interpolateHeight (t : TerrainData) (pos : Vec2) : ℚ :=
  let hex := worldPosToHex t.scale pos
  match idwLoop t pos (idwCandidates t pos) 0 0 with
  | Sum.inl h => h
  | Sum.inr (wsum, wtot) =>
    if 0 < wtot then wsum / wtot
    else (mapGet t.heights hex).getD 0

/-- The vertices interpolate_height consults: the existing vertices among
the candidate (hex, corner) pairs, in scan order. -/
def idwVertices (t : TerrainData) (pos : Vec2) : List Vec3 :=
  (idwCandidates t pos).filterMap fun p => vertexM t p.1 p.2

/-- Reference IDW definition, following the spec's words: over the hex
containing pos and its 6 neighbors, collect every existing vertex; if any
has squared planar distance below 1e-3 the result is that vertex's stored
height; otherwise it is the quotient of the sum of height/d² by the sum of
1/d²; with no vertices at all it is the center hex's stored height, or 0
when that hex is absent. -/
def idwSpec (t : TerrainData) (pos : Vec2) : ℚ :=
  let hex := worldPosToHex t.scale pos
  let vs := idwVertices t pos
  match vs.find? (fun v => decide (distSq pos v < 1 / 1000)) with
  | some v => v.y
  | none =>
    if vs.isEmpty then (mapGet t.heights hex).getD 0
    else (vs.map fun v => v.y / distSq pos v).sum / (vs.map fun v => 1 / distSq pos v).sum

/-- If some candidate vertex is within the near-vertex threshold, the
accumulation loop returns that (first such) vertex's height, regardless of
the accumulators. -/
theorem idwLoop_early (t : TerrainData) (pos : Vec2) :
    ∀ (l : List (Hex × Fin 6)) (w0 t0 : ℚ) (v : Vec3),
      (l.filterMap fun p => vertexM t p.1 p.2).find?
          (fun u => decide (distSq pos u < 1 / 1000)) = some v →
      idwLoop t pos l w0 t0 = Sum.inl v.y := by
  intro l
  induction l with
  | nil => intro w0 t0 v hfind; simp at hfind
  | cons p rest ih =>
    intro w0 t0 v hfind
    obtain ⟨h, i⟩ := p
    simp only [List.filterMap_cons] at hfind
    cases hv : vertexM t h i with
    | none =>
      rw [hv] at hfind
      simpa [idwLoop, hv] using ih w0 t0 v hfind
    | some u =>
      rw [hv] at hfind
      by_cases hd : distSq pos u < 1 / 1000
      · rw [List.find?_cons_of_pos _ (by simpa using hd)] at hfind
        simp only [Option.some.injEq] at hfind
        subst hfind
        simp only [idwLoop, hv]
        rw [if_pos hd]
      · rw [List.find?_cons_of_neg _ (by simpa using hd)] at hfind
        simp only [idwLoop, hv]
        rw [if_neg hd]
        exact ih (w0 + u.y * (1 / distSq pos u)) (t0 + 1 / distSq pos u) v hfind

/-- If no candidate vertex is within the near-vertex threshold, the
accumulation loop adds the height/d² and 1/d² sums over the existing
vertices to the incoming accumulators. -/
theorem idwLoop_acc (t : TerrainData) (pos : Vec2) :
    ∀ (l : List (Hex × Fin 6)) (w0 t0 : ℚ),
      (l.filterMap fun p => vertexM t p.1 p.2).find?
          (fun u => decide (distSq pos u < 1 / 1000)) = none →
      idwLoop t pos l w0 t0 =
        Sum.inr
          (w0 + ((l.filterMap fun p => vertexM t p.1 p.2).map
            fun v => v.y / distSq pos v).sum,
           t0 + ((l.filterMap fun p => vertexM t p.1 p.2).map
            fun v => 1 / distSq pos v).sum) := by
  intro l
  induction l with
  | nil => intro w0 t0 _; simp [idwLoop]
  | cons p rest ih =>
    intro w0 t0 hfind
    obtain ⟨h, i⟩ := p
    simp only [List.filterMap_cons] at hfind
    cases hv : vertexM t h i with
    | none =>
      rw [hv] at hfind
      simpa [idwLoop, hv] using ih w0 t0 hfind
    | some u =>
      rw [hv] at hfind
      by_cases hd : distSq pos u < 1 / 1000
      · rw [List.find?_cons_of_pos _ (by simpa using hd)] at hfind
        simp at hfind
      · rw [List.find?_cons_of_neg _ (by simpa using hd)] at hfind
        have hrec := ih (w0 + u.y * (1 / distSq pos u)) (t0 + 1 / distSq pos u) hfind
        simp only [idwLoop, hv, if_neg hd, hrec, List.filterMap_cons, List.map_cons,
          List.sum_cons, Sum.inr.injEq, Prod.mk.injEq]
        constructor <;> ring

/-- Shared helper: interpolate_height computes the reference IDW value.
Both the refinement claim and the bounds claim rely on this case analysis. -/
theorem interpolateHeight_eq_idwSpec (t : TerrainData) (pos : Vec2) :
    interpolateHeight t pos = idwSpec t pos := by
  show (match idwLoop t pos (idwCandidates t pos) 0 0 with
        | Sum.inl h => h
        | Sum.inr (wsum, wtot) =>
          if 0 < wtot then wsum / wtot
          else (mapGet t.heights (worldPosToHex t.scale pos)).getD 0) =
      (match ((idwCandidates t pos).filterMap fun p => vertexM t p.1 p.2).find?
          (fun v => decide (distSq pos v < 1 / 1000)) with
        | some v => v.y
        | none =>
          if (((idwCandidates t pos).filterMap fun p => vertexM t p.1 p.2).isEmpty) then
            (mapGet t.heights (worldPosToHex t.scale pos)).getD 0
          else
            (((idwCandidates t pos).filterMap fun p => vertexM t p.1 p.2).map
              fun v => v.y / distSq pos v).sum /
            (((idwCandidates t pos).filterMap fun p => vertexM t p.1 p.2).map
              fun v => 1 / distSq pos v).sum)
  cases hf : ((idwCandidates t pos).filterMap fun p => vertexM t p.1 p.2).find?
      (fun u => decide (distSq pos u < 1 / 1000)) with
  | some v =>
    rw [idwLoop_early t pos _ 0 0 v hf]
  | none =>
    rw [idwLoop_acc t pos _ 0 0 hf]
    show (if 0 < 0 + (((idwCandidates t pos).filterMap fun p => vertexM t p.1 p.2).map
            fun v => 1 / distSq pos v).sum then
        (0 + (((idwCandidates t pos).filterMap fun p => vertexM t p.1 p.2).map
            fun v => v.y / distSq pos v).sum) /
        (0 + (((idwCandidates t pos).filterMap fun p => vertexM t p.1 p.2).map
            fun v => 1 / distSq pos v).sum)
      else (mapGet t.heights (worldPosToHex t.scale pos)).getD 0) =
      (if (((idwCandidates t pos).filterMap fun p => vertexM t p.1 p.2).isEmpty) then
        (mapGet t.heights (worldPosToHex t.scale pos)).getD 0
      else
        (((idwCandidates t pos).filterMap fun p => vertexM t p.1 p.2).map
          fun v => v.y / distSq pos v).sum /
        (((idwCandidates t pos).filterMap fun p => vertexM t p.1 p.2).map
          fun v => 1 / distSq pos v).sum)
    rw [zero_add, zero_add]
    by_cases hvs : ((idwCandidates t pos).filterMap fun p => vertexM t p.1 p.2) = []
    · rw [hvs]
      norm_num
    · have hpos : 0 < (((idwCandidates t pos).filterMap fun p => vertexM t p.1 p.2).map
          fun v => 1 / distSq pos v).sum := by
        apply List.sum_pos
        · intro a ha
          simp only [List.mem_map] at ha
          obtain ⟨v, hvmem, rfl⟩ := ha
          have hnear := List.find?_eq_none.mp hf v hvmem
          simp only [decide_eq_true_eq] at hnear
          have hge : (1 : ℚ) / 1000 ≤ distSq pos v := le_of_not_lt hnear
          positivity
        · simpa using hvs
      rw [if_pos hpos, if_neg (by simpa [List.isEmpty_iff] using hvs)]

/-- C1: interpolate_height coincides with the reference IDW definition
written from the spec — same near-vertex early return, same Σ(h/d²)/Σ(1/d²)
quotient over all found vertices, same stored-height/0 fallback. -/
theorem interpolate_height_matches_reference_idw (t : TerrainData) (pos : Vec2) :
    interpolateHeight t pos = idwSpec t pos :=
  interpolateHeight_eq_idwSpec t pos

/-- Minimum of a list of rationals: none for the empty list, else the fold
of min over the tail seeded with the head. -/
def minOfList : List ℚ → Option ℚ
  | [] => none
  | a :: l => some (l.foldl min a)

/-- Maximum of a list of rationals, dually. -/
def maxOfList : List ℚ → Option ℚ
  | [] => none
  | a :: l => some (l.foldl max a)

theorem foldlMin_le_init : ∀ (l : List ℚ) (a : ℚ), l.foldl min a ≤ a
  | [], a => le_refl a
  | b :: l, a => le_trans (foldlMin_le_init l (min a b)) (min_le_left a b)

theorem foldlMin_le_mem : ∀ (l : List ℚ) (a x : ℚ), x ∈ l → l.foldl min a ≤ x
  | b :: l, a, x, hx => by
    rcases List.mem_cons.mp hx with h | h
    · subst h
      exact le_trans (foldlMin_le_init l (min a x)) (min_le_right a x)
    · exact foldlMin_le_mem l (min a b) x h

theorem init_le_foldlMax : ∀ (l : List ℚ) (a : ℚ), a ≤ l.foldl max a
  | [], a => le_refl a
  | b :: l, a => le_trans (le_max_left a b) (init_le_foldlMax l (max a b))

theorem mem_le_foldlMax : ∀ (l : List ℚ) (a x : ℚ), x ∈ l → x ≤ l.foldl max a
  | b :: l, a, x, hx => by
    rcases List.mem_cons.mp hx with h | h
    · subst h
      exact le_trans (le_max_right a x) (init_le_foldlMax l (max a x))
    · exact mem_le_foldlMax l (max a b) x h

theorem minOfList_le {ys : List ℚ} {lo : ℚ} (h : minOfList ys = some lo) :
    ∀ y ∈ ys, lo ≤ y := by
  cases ys with
  | nil => simp [minOfList] at h
  | cons a l =>
    simp only [minOfList, Option.some.injEq] at h
    subst h
    intro y hy
    rcases List.mem_cons.mp hy with h | h
    · subst h
      exact foldlMin_le_init l y
    · exact foldlMin_le_mem l a y h

theorem le_maxOfList {ys : List ℚ} {hi : ℚ} (h : maxOfList ys = some hi) :
    ∀ y ∈ ys, y ≤ hi := by
  cases ys with
  | nil => simp [maxOfList] at h
  | cons a l =>
    simp only [maxOfList, Option.some.injEq] at h
    subst h
    intro y hy
    rcases List.mem_cons.mp hy with h | h
    · subst h
      exact init_le_foldlMax l y
    · exact mem_le_foldlMax l a y h

theorem idw_weighted_sum_le (pos : Vec2) (hi : ℚ) :
    ∀ vs : List Vec3, (∀ v ∈ vs, v.y ≤ hi ∧ 0 < distSq pos v) →
      (vs.map fun v => v.y / distSq pos v).sum ≤
        hi * (vs.map fun v => 1 / distSq pos v).sum := by
  intro vs
  induction vs with
  | nil => intro _; simp
  | cons v rest ih =>
    intro hcond
    obtain ⟨hvy, hvd⟩ := hcond v (List.mem_cons_self v rest)
    have hrest := ih fun u hu => hcond u (List.mem_cons_of_mem v hu)
    simp only [List.map_cons, List.sum_cons, mul_add]
    have hhead : v.y / distSq pos v ≤ hi * (1 / distSq pos v) := by
      rw [mul_one_div]
      exact div_le_div_of_nonneg_right hvy hvd.le
    exact add_le_add hhead hrest

theorem idw_le_weighted_sum (pos : Vec2) (lo : ℚ) :
    ∀ vs : List Vec3, (∀ v ∈ vs, lo ≤ v.y ∧ 0 < distSq pos v) →
      lo * (vs.map fun v => 1 / distSq pos v).sum ≤
        (vs.map fun v => v.y / distSq pos v).sum := by
  intro vs
  induction vs with
  | nil => intro _; simp
  | cons v rest ih =>
    intro hcond
    obtain ⟨hvy, hvd⟩ := hcond v (List.mem_cons_self v rest)
    have hrest := ih fun u hu => hcond u (List.mem_cons_of_mem v hu)
    simp only [List.map_cons, List.sum_cons, mul_add]
    have hhead : lo * (1 / distSq pos v) ≤ v.y / distSq pos v := by
      rw [mul_one_div]
      exact div_le_div_of_nonneg_right hvy hvd.le
    exact add_le_add hhead hrest

/-- C10: whenever interpolate_height does not take the zero-vertices
fallback branch (some vertex of the containing hex or its six neighbors
exists, so the consulted height list has a minimum and a maximum), its
result lies between the minimum and maximum consulted heights: the
near-vertex early return is one of them, and the IDW quotient is a convex
combination of them. -/
theorem interpolate_height_bounded_by_consulted_heights
    (t : TerrainData) (pos : Vec2) (lo hi : ℚ)
    (hlo : minOfList ((idwVertices t pos).map fun v => v.y) = some lo)
    (hhi : maxOfList ((idwVertices t pos).map fun v => v.y) = some hi) :
    lo ≤ interpolateHeight t pos ∧ interpolateHeight t pos ≤ hi := by
  rw [interpolateHeight_eq_idwSpec]
  have hlo' : ∀ v ∈ idwVertices t pos, lo ≤ v.y := fun v hv =>
    minOfList_le hlo v.y (List.mem_map_of_mem _ hv)
  have hhi' : ∀ v ∈ idwVertices t pos, v.y ≤ hi := fun v hv =>
    le_maxOfList hhi v.y (List.mem_map_of_mem _ hv)
  have hne : idwVertices t pos ≠ [] := by
    intro hnil
    rw [hnil] at hlo
    simp [minOfList] at hlo
  show lo ≤ (match (idwVertices t pos).find? (fun v => decide (distSq pos v < 1 / 1000)) with
      | some v => v.y
      | none =>
        if (idwVertices t pos).isEmpty then
          (mapGet t.heights (worldPosToHex t.scale pos)).getD 0
        else ((idwVertices t pos).map fun v => v.y / distSq pos v).sum /
          ((idwVertices t pos).map fun v => 1 / distSq pos v).sum) ∧
    (match (idwVertices t pos).find? (fun v => decide (distSq pos v < 1 / 1000)) with
      | some v => v.y
      | none =>
        if (idwVertices t pos).isEmpty then
          (mapGet t.heights (worldPosToHex t.scale pos)).getD 0
        else ((idwVertices t pos).map fun v => v.y / distSq pos v).sum /
          ((idwVertices t pos).map fun v => 1 / distSq pos v).sum) ≤ hi
  cases hf : (idwVertices t pos).find? (fun v => decide (distSq pos v < 1 / 1000)) with
  | some v =>
    have hmem : v ∈ idwVertices t pos := List.mem_of_find?_eq_some hf
    exact ⟨hlo' v hmem, hhi' v hmem⟩
  | none =>
    have hd2 : ∀ v ∈ idwVertices t pos, 0 < distSq pos v := by
      intro v hv
      have hnear := List.find?_eq_none.mp hf v hv
      simp only [decide_eq_true_eq] at hnear
      have : (1 : ℚ) / 1000 ≤ distSq pos v := le_of_not_lt hnear
      linarith
    have hpos : 0 < ((idwVertices t pos).map fun v => 1 / distSq pos v).sum := by
      apply List.sum_pos
      · intro a ha
        simp only [List.mem_map] at ha
        obtain ⟨v, hvmem, rfl⟩ := ha
        have := hd2 v hvmem
        positivity
      · simpa using hne
    rw [if_neg (by simpa [List.isEmpty_iff] using hne)]
    constructor
    · exact (le_div_iff₀ hpos).mpr
        (idw_le_weighted_sum pos lo _ fun v hv => ⟨hlo' v hv, hd2 v hv⟩)
    · exact (div_le_iff₀ hpos).mpr
        (idw_weighted_sum_le pos hi _ fun v hv => ⟨hhi' v hv, hd2 v hv⟩)

/-- A single-hex terrain, mirroring the source's test constructor
TerrainHexLayout::single — one hex at the origin with height 5, radius 1,
spacing 4. -/
def singleHexGrid : TerrainData := ⟨4, [(⟨0, 0⟩, 5)], [(⟨0, 0⟩, 1)]⟩

set_option maxHeartbeats 2000000 in
/-- Witness for the interpolation bounds claim: on the single-hex grid the
consulted heights are all 5, and the interpolated height at the origin is
bounded by 5 on both sides. -/
theorem interpolate_height_bounded_witness :
    5 ≤ interpolateHeight singleHexGrid ⟨0, 0⟩ ∧
    interpolateHeight singleHexGrid ⟨0, 0⟩ ≤ 5 := by
  have hhex : worldPosToHex 4 ⟨0, 0⟩ = ⟨0, 0⟩ := by
    norm_num [worldPosToHex, hexRound, roundAway, inv0, inv1, inv2, inv3]
  have hmin : minOfList ((idwVertices singleHexGrid ⟨0, 0⟩).map fun v => v.y) = some 5 := by
    norm_num [singleHexGrid, idwVertices, idwCandidates, hhex, idx6, allNeighbors,
      neighborHex, Hex.addHex, dirOffset, vertexM, mapGet, minOfList, hexToWorldPos,
      fwd0, fwd1, fwd2, fwd3, sqrt3f, unitCorner, Hex.mk.injEq,
      List.filterMap_cons, List.filterMap_nil, List.map_cons, List.map_nil,
      List.foldl_cons, List.foldl_nil, min_def]
  have hmax : maxOfList ((idwVertices singleHexGrid ⟨0, 0⟩).map fun v => v.y) = some 5 := by
    norm_num [singleHexGrid, idwVertices, idwCandidates, hhex, idx6, allNeighbors,
      neighborHex, Hex.addHex, dirOffset, vertexM, mapGet, maxOfList, hexToWorldPos,
      fwd0, fwd1, fwd2, fwd3, sqrt3f, unitCorner, Hex.mk.injEq,
      List.filterMap_cons, List.filterMap_nil, List.map_cons, List.map_nil,
      List.foldl_cons, List.foldl_nil, max_def]
  exact interpolate_height_bounded_by_consulted_heights singleHexGrid ⟨0, 0⟩ 5 5 hmin hmax

/-- Bevy Transform restricted to translation and scale.  Every transform in
the modelled code paths (disc placement, inverse_transform) is built with
identity rotation, so rotation is omitted; composition below is Bevy's
mul_transform specialized to identity rotations. -/
structure TransformM where
  translation : Vec3
  scale : Vec3
deriving DecidableEq, Repr

/-- Bevy Transform::mul_transform for identity rotations: the combined
translation is parent.translation + parent.scale * child.translation
(componentwise), the combined scale is the componentwise product. -/
def mulTransform (p c : TransformM) : TransformM :=
  ⟨⟨p.translation.x + p.scale.x * c.translation.x,
    p.translation.y + p.scale.y * c.translation.y,
    p.translation.z + p.scale.z * c.translation.z⟩,
   ⟨p.scale.x * c.scale.x, p.scale.y * c.scale.y, p.scale.z * c.scale.z⟩⟩

/-- The hex's placement transform, as spawned by generate_grid:
translation (center.x, height, center.y), scale (radius, 1, radius).
The source indexes the maps directly; absence is excluded by hypothesis in
the theorems, and modelled here with getD. -/
def placementTransform (t : TerrainData) (h : Hex) : TransformM :=
  let center := hexToWorldPos t.scale h
  let height := (mapGet t.heights h).getD 0
  let radius := (mapGet t.radii h).getD 0
  ⟨⟨center.x, height, center.y⟩, ⟨radius, 1, radius⟩⟩

/-- TerrainHexLayout::inverse_transform (identical to petals.rs
world_space_inverse): translation −parent_t / parent_s componentwise,
scale 1 / parent_s componentwise, for parent_t = (center.x, height,
center.y) and parent_s = (radius, 1, radius). -/
def inverseTransform (t : TerrainData) (h : Hex) : TransformM :=
  let center := hexToWorldPos t.scale h
  let height := (mapGet t.heights h).getD 0
  let radius := (mapGet t.radii h).getD 0
  ⟨⟨-center.x / radius, -height / 1, -center.y / radius⟩,
   ⟨1 / radius, 1 / 1, 1 / radius⟩⟩

/-- C6: for every hex present in the field with nonzero radius, composing
the placement transform with inverse_transform yields the identity up to
tolerance — the combined translation has squared length below (1e-4)² and
the combined scale differs from (1,1,1) by less than 1e-4 in squared
length (in fact both are exact in the rational model). -/
theorem inverse_transform_cancels_placement
    (t : TerrainData) (h : Hex) (ht r : ℚ)
    (hht : mapGet t.heights h = some ht)
    (hr : mapGet t.radii h = some r)
    (hr0 : r ≠ 0) :
    Vec3.normSq (mulTransform (placementTransform t h) (inverseTransform t h)).translation
      < (1 / 10000) ^ 2 ∧
    Vec3.normSq
      ⟨(mulTransform (placementTransform t h) (inverseTransform t h)).scale.x - 1,
       (mulTransform (placementTransform t h) (inverseTransform t h)).scale.y - 1,
       (mulTransform (placementTransform t h) (inverseTransform t h)).scale.z - 1⟩
      < (1 / 10000) ^ 2 := by
  simp only [mulTransform, placementTransform, inverseTransform, hht, hr, Option.getD_some]
  constructor
  · have hx : (hexToWorldPos t.scale h).x + r * (-(hexToWorldPos t.scale h).x / r) = 0 := by
      field_simp
      ring
    have hy : ht + 1 * (-ht / 1) = 0 := by ring
    have hz : (hexToWorldPos t.scale h).y + r * (-(hexToWorldPos t.scale h).y / r) = 0 := by
      field_simp
      ring
    simp only [Vec3.normSq, hx, hy, hz]
    norm_num
  · have hs : r * (1 / r) = 1 := by field_simp
    simp only [Vec3.normSq, hs]
    norm_num

/-- Witness for the inverse-transform claim at the single-hex grid: the
hex at the origin has height 5 and radius 1, and composing placement with
inverse_transform lands within tolerance of the identity. -/
theorem inverse_transform_cancels_witness :
    Vec3.normSq (mulTransform (placementTransform singleHexGrid ⟨0, 0⟩)
        (inverseTransform singleHexGrid ⟨0, 0⟩)).translation < (1 / 10000) ^ 2 ∧
    Vec3.normSq
      ⟨(mulTransform (placementTransform singleHexGrid ⟨0, 0⟩)
          (inverseTransform singleHexGrid ⟨0, 0⟩)).scale.x - 1,
       (mulTransform (placementTransform singleHexGrid ⟨0, 0⟩)
          (inverseTransform singleHexGrid ⟨0, 0⟩)).scale.y - 1,
       (mulTransform (placementTransform singleHexGrid ⟨0, 0⟩)
          (inverseTransform singleHexGrid ⟨0, 0⟩)).scale.z - 1⟩ < (1 / 10000) ^ 2 :=
  inverse_transform_cancels_placement singleHexGrid ⟨0, 0⟩ 5 1
    (by norm_num [singleHexGrid, mapGet]) (by norm_num [singleHexGrid, mapGet])
    (by norm_num)

/-- ActiveHex / CameraCell state: the hex under the viewpoint, the previous
hex (if any transition has happened), and the one-cycle change flag. -/
structure CellState where
  current : Hex
  previous : Option Hex
  changed : Bool
deriving DecidableEq, Repr

/-- track_active_hex / track_camera_cell, as a pure step function of the
previous state and the viewpoint's planar position: compute the hex under
the position; on a cell change or on the first-ever invocation (previous
none), shift current into previous, adopt the new hex, and raise changed;
otherwise only lower changed. -/
def trackStep (s : ℚ) (st : CellState) (pos : Vec2) : CellState :=
  let newHex := worldPosToHex s pos
  if newHex ≠ st.current ∨ st.previous = none then
    ⟨newHex, some st.current, true⟩
  else
    ⟨st.current, st.previous, false⟩

/-- C7: one Track step is exactly the claimed total function — transition
or first invocation gives (new_hex, some old current, changed), anything
else only clears changed — and consequently changed holds for exactly one
update cycle after a transition (a second step at the same position clears
it) and the first-ever update always sets it. -/
theorem track_step_characterization (s : ℚ) (st : CellState) (pos : Vec2) :
    ((worldPosToHex s pos ≠ st.current ∨ st.previous = none) →
      trackStep s st pos = ⟨worldPosToHex s pos, some st.current, true⟩) ∧
    ((worldPosToHex s pos = st.current ∧ st.previous ≠ none) →
      trackStep s st pos = ⟨st.current, st.previous, false⟩) ∧
    (trackStep s (trackStep s st pos) pos).changed = false ∧
    (st.previous = none → (trackStep s st pos).changed = true) := by
  refine ⟨?_, ?_, ?_, ?_⟩
  · intro hcond
    simp only [trackStep, if_pos hcond]
  · intro ⟨heq, hprev⟩
    have hncond : ¬(worldPosToHex s pos ≠ st.current ∨ st.previous = none) := by
      push_neg
      exact ⟨heq, hprev⟩
    simp only [trackStep, if_neg hncond]
  · by_cases hcond : worldPosToHex s pos ≠ st.current ∨ st.previous = none
    · simp only [trackStep, if_pos hcond]
      have hn2 : ¬(worldPosToHex s pos ≠ worldPosToHex s pos ∨
          (some st.current : Option Hex) = none) := by
        push_neg
        exact ⟨rfl, Option.some_ne_none st.current⟩
      rw [if_neg hn2]
    · simp only [trackStep, if_neg hcond]
  · intro hprev
    simp only [trackStep, if_pos (Or.inr hprev)]

/-- Witness for the Track characterization: from the default initial state
(previous = none) at the origin, the step raises changed and records the
old current hex. -/
theorem track_step_characterization_witness :
    trackStep 4 ⟨⟨0, 0⟩, none, false⟩ ⟨0, 0⟩ =
      ⟨worldPosToHex 4 ⟨0, 0⟩, some ⟨0, 0⟩, true⟩ :=
  (track_step_characterization 4 ⟨⟨0, 0⟩, none, false⟩ ⟨0, 0⟩).1 (Or.inr rfl)

/-- Descriptor of one spawned edge-line cuboid: its midpoint transform
translation and its squared stretch length (the mesh length is the square
root; squares keep the model inside ℚ). -/
structure EdgeLineM where
  midpoint : Vec3
  lengthSq : ℚ
deriving DecidableEq, Repr

/-- edges.rs spawn_edge_line: returns without spawning when
length(to − from) < 0.001 — equivalently squared length < 1e-6 — and
otherwise spawns one edge cuboid entity.  The returned list holds the
entities created by the call. -/
def spawnEdgeLineEdges (vfrom vto : Vec3) : List EdgeLineM :=
  let diff := Vec3.sub vto vfrom
  if Vec3.normSq diff < 1 / 1000000 then []
  else [⟨Vec3.midpoint vfrom vto, Vec3.normSq diff⟩]

/-- petals/systems.rs spawn_edge_line (same body in petals.rs and
terrain/systems.rs): spawns one edge cuboid entity unconditionally — there
is no degenerate-length guard in these paths. -/
def spawnEdgeLinePetals (vfrom vto : Vec3) : List EdgeLineM :=
  let diff := Vec3.sub vto vfrom
  [⟨Vec3.midpoint vfrom vto, Vec3.normSq diff⟩]

/-- C4 counterexample: at from = to = 0 the squared length is below 1e-6,
yet the petals-path spawn_edge_line still creates an edge entity — the
claim that every edge-spawning code path skips degenerate pairs is false. -/
theorem degenerate_edge_skip_fails_in_petals_path :
    Vec3.normSq (Vec3.sub ⟨0, 0, 0⟩ ⟨0, 0, 0⟩) < 1 / 1000000 ∧
    spawnEdgeLinePetals ⟨0, 0, 0⟩ ⟨0, 0, 0⟩ ≠ [] := by
  constructor
  · norm_num [Vec3.normSq, Vec3.sub]
  · simp [spawnEdgeLinePetals]

/-- C4 amended: for every pair of points closer than 1e-3, only the
edges.rs spawn path skips the edge (no entity); the petal-based spawn
paths (petals.rs, petals/systems.rs, terrain/systems.rs) create exactly
one edge entity unconditionally, degenerate input included. -/
theorem degenerate_edge_skip_only_in_edges_path (vfrom vto : Vec3)
    (hnear : Vec3.normSq (Vec3.sub vto vfrom) < 1 / 1000000) :
    spawnEdgeLineEdges vfrom vto = [] ∧
    (spawnEdgeLinePetals vfrom vto).length = 1 := by
  constructor
  · simp only [spawnEdgeLineEdges, if_pos hnear]
  · simp [spawnEdgeLinePetals]

/-- Witness for the amended degenerate-edge claim at from = to = 0. -/
theorem degenerate_edge_skip_only_in_edges_path_witness :
    spawnEdgeLineEdges ⟨0, 0, 0⟩ ⟨0, 0, 0⟩ = [] ∧
    (spawnEdgeLinePetals ⟨0, 0, 0⟩ ⟨0, 0, 0⟩).length = 1 :=
  degenerate_edge_skip_only_in_edges_path ⟨0, 0, 0⟩ ⟨0, 0, 0⟩
    (by norm_num [Vec3.normSq, Vec3.sub])

/-- Modelled from the spec: canonical representative of the 3-hex junction
at corner v of hex h.  A junction's three representations are
(h, v), (h + dir v, v+2), (h + dir (v+1), v+4), so junction classes come in
two parities and the canonical representation is the unique one whose
vertex direction is 0 (even class) or 1 (odd class) — per the spec, only
vertex directions 0 and 1 are ever origin-owned. -/
def canonRep (h : Hex) (v : Fin 6) : Hex × Fin 6 :=
  match v with
  | 0 => (h, 0)
  | 1 => (h, 1)
  | 2 => (h.addHex (dirOffset 3), 0)
  | 3 => (h.addHex (dirOffset 4), 1)
  | 4 => (h.addHex (dirOffset 4), 0)
  | 5 => (h.addHex (dirOffset 5), 1)

/-- Modelled from the spec: hexx GridVertex::coordinates — the three hexes
incident to the junction at corner v of hex h, canonical origin first,
then its two neighbors across the edges flanking the canonical corner. -/
def gridVertexCoords (h : Hex) (v : Fin 6) : Hex × Hex × Hex :=
  let r := canonRep h v
  (r.1, r.1.addHex (dirOffset r.2), r.1.addHex (dirOffset (r.2 + 1)))

/-- The three hexes incident to the junction at corner v of hex h, as a
set: the hex itself and its neighbors across the two flanking edges. -/
def cornerFinset (h : Hex) (v : Fin 6) : Finset Hex :=
  {h, h.addHex (dirOffset v), h.addHex (dirOffset (v + 1))}

/-- The even edge indices whose quad petal hex h spawns: the iteration
[0, 2, 4] of spawn_petals, filtered by spawn_quad_leaf's early exits — the
neighbor across the edge must exist (its heights entry, its entity-map
entry, and the four vertex_positions lookups all exist exactly for hexes
of the generated region, modelled by the single presence set F). -/
def quadEdgesForHex (F : Finset Hex) (h : Hex) : List (Fin 6) :=
  [(0 : Fin 6), 2, 4].filter fun e => decide (neighborHex h e ∈ F)

/-- The vertex indices whose tri petal hex h spawns: the iteration [0, 1]
of spawn_petals, filtered by spawn_tri_leaf's early exits — all three
junction hexes must exist and the canonical origin must be h itself
(the equivalent-vertex and entity lookups again reduce to presence). -/
def triVerticesForHex (F : Finset Hex) (h : Hex) : List (Fin 6) :=
  [(0 : Fin 6), 1].filter fun v =>
    let c := gridVertexCoords h v
    decide (c.1 ∈ F ∧ c.2.1 ∈ F ∧ c.2.2 ∈ F ∧ c.1 = h)

/-- State threaded through one reveal pass: the drawn set plus the quad and
tri petals spawned so far (keyed by owner hex and edge/vertex index). -/
structure RevealOut where
  drawn : Finset Hex
  quads : List (Hex × Fin 6)
  tris : List (Hex × Fin 6)
deriving DecidableEq

/-- One iteration of the reveal loop body: skip the hex when it is absent
from the field or already drawn; otherwise mark it drawn and spawn its
quad petals (even edges 0,2,4) and tri petals (vertices 0,1). -/
def revealHexStep (F : Finset Hex) (s : RevealOut) (h : Hex) : RevealOut :=
  if h ∉ F ∨ h ∈ s.drawn then s
  else
    { drawn := insert h s.drawn
      quads := s.quads ++ (quadEdgesForHex F h).map fun e => (h, e)
      tris := s.tris ++ (triVerticesForHex F h).map fun v => (h, v) }

/-- One Reveal invocation (spawn_petals with a Some center): fold the loop
body over the hexagon of the reveal radius around the center, starting
from the incoming drawn set with nothing yet spawned this pass. -/
def reveal (F : Finset Hex) (drawn0 : Finset Hex) (center : Hex) (radius : ℕ) : RevealOut :=
  (hexagonList center radius).foldl (revealHexStep F) ⟨drawn0, [], []⟩

/-- The presence set of a generated hexagonal region: all hexes within the
given radius of the center (every generated hex has height, radius, vertex
positions, and a disc entity). -/
def hexRegion (c : Hex) (r : ℕ) : Finset Hex :=
  (hexagonList c r).toFinset

/-- C2 counterexample: for the radius-1 region (7 hexes, all present) with
one Reveal at the origin with reveal_radius 1, the claimed petal counts —
exactly 6 quad petals and 6 triangle petals — are false: 12 quad petals are
spawned (the 6 ring hexes also own quads toward each other), not 6. -/
theorem reveal_radius_one_claimed_counts_false :
    ¬ ((reveal (hexRegion ⟨0, 0⟩ 1) ∅ ⟨0, 0⟩ 1).quads.length = 6 ∧
       (reveal (hexRegion ⟨0, 0⟩ 1) ∅ ⟨0, 0⟩ 1).tris.length = 6) := by
  decide

/-- C2 amended: the radius-1 scenario spawns exactly 12 quad petals — one
per interior edge: 6 center–neighbor spokes plus 6 neighbor–neighbor ring
edges — and exactly 6 triangle petals (the 6 interior junctions around the
center), a total of 18; reveal is a pure function of the region, so the
count is the same on every run. -/
theorem reveal_radius_one_spawns_twelve_quads_six_tris :
    (reveal (hexRegion ⟨0, 0⟩ 1) ∅ ⟨0, 0⟩ 1).quads.length = 12 ∧
    (reveal (hexRegion ⟨0, 0⟩ 1) ∅ ⟨0, 0⟩ 1).tris.length = 6 ∧
    (reveal (hexRegion ⟨0, 0⟩ 1) ∅ ⟨0, 0⟩ 1).quads.length +
      (reveal (hexRegion ⟨0, 0⟩ 1) ∅ ⟨0, 0⟩ 1).tris.length = 18 := by
  decide

/-- Folding the reveal body only ever grows the drawn set. -/
theorem reveal_fold_drawn_monotone (F : Finset Hex) :
    ∀ (l : List Hex) (s : RevealOut), s.drawn ⊆ (l.foldl (revealHexStep F) s).drawn := by
  intro l
  induction l with
  | nil => intro s; exact Finset.Subset.refl _
  | cons h rest ih =>
    intro s
    refine Finset.Subset.trans ?_ (ih (revealHexStep F s h))
    unfold revealHexStep
    split
    · exact Finset.Subset.refl _
    · exact Finset.subset_insert h s.drawn

/-- If every present hex of the list is already drawn, the reveal fold is a
no-op: nothing is spawned and the state is unchanged. -/
theorem reveal_fold_noop (F : Finset Hex) :
    ∀ (l : List Hex) (s : RevealOut), (∀ h ∈ l, h ∈ F → h ∈ s.drawn) →
      l.foldl (revealHexStep F) s = s := by
  intro l
  induction l with
  | nil => intro s _; rfl
  | cons h rest ih =>
    intro s hcov
    have hstep : revealHexStep F s h = s := by
      unfold revealHexStep
      by_cases hF : h ∈ F
      · rw [if_pos (Or.inr (hcov h (List.mem_cons_self h rest) hF))]
      · rw [if_pos (Or.inl hF)]
    rw [List.foldl_cons, hstep]
    exact ih s fun h2 hh2 => hcov h2 (List.mem_cons_of_mem h hh2)

/-- After folding the reveal body over a list, every present hex of the
list is in the drawn set. -/
theorem reveal_fold_covers (F : Finset Hex) :
    ∀ (l : List Hex) (s : RevealOut) (h : Hex), h ∈ l → h ∈ F →
      h ∈ (l.foldl (revealHexStep F) s).drawn := by
  intro l
  induction l with
  | nil => intro s h hh; simp at hh
  | cons h0 rest ih =>
    intro s h hh hF
    rcases List.mem_cons.mp hh with heq | hmem
    · subst heq
      rw [List.foldl_cons]
      apply reveal_fold_drawn_monotone F rest
      unfold revealHexStep
      by_cases hdrawn : h ∈ s.drawn
      · rw [if_pos (Or.inr hdrawn)]
        exact hdrawn
      · rw [if_neg (by push_neg; exact ⟨hF, hdrawn⟩)]
        exact Finset.mem_insert_self h s.drawn
    · exact ih (revealHexStep F s h0) h hmem hF

/-- C9: Reveal is idempotent and the drawn set only grows — one invocation
extends the drawn set, a second invocation with the same center (and any
invocation whose ring holds only already-drawn hexes) spawns zero petals
and leaves the drawn set untouched. -/
theorem reveal_idempotent_and_drawn_monotone
    (F drawn0 : Finset Hex) (center : Hex) (radius : ℕ) :
    drawn0 ⊆ (reveal F drawn0 center radius).drawn ∧
    (∀ center2 : Hex, (∀ h ∈ hexagonList center2 radius, h ∈ F →
        h ∈ (reveal F drawn0 center radius).drawn) →
      reveal F (reveal F drawn0 center radius).drawn center2 radius =
        ⟨(reveal F drawn0 center radius).drawn, [], []⟩) ∧
    reveal F (reveal F drawn0 center radius).drawn center radius =
      ⟨(reveal F drawn0 center radius).drawn, [], []⟩ := by
  refine ⟨reveal_fold_drawn_monotone F (hexagonList center radius) ⟨drawn0, [], []⟩, ?_, ?_⟩
  · intro center2 hcov
    exact reveal_fold_noop F _ _ hcov
  · apply reveal_fold_noop F
    intro h hh hF
    exact reveal_fold_covers F _ _ h hh hF

/-- Witness for reveal idempotence on the radius-1 region: revealing the
origin ring a second time spawns nothing and keeps the drawn set. -/
theorem reveal_idempotent_witness :
    reveal (hexRegion ⟨0, 0⟩ 1) (reveal (hexRegion ⟨0, 0⟩ 1) ∅ ⟨0, 0⟩ 1).drawn ⟨0, 0⟩ 1 =
      ⟨(reveal (hexRegion ⟨0, 0⟩ 1) ∅ ⟨0, 0⟩ 1).drawn, [], []⟩ :=
  (reveal_idempotent_and_drawn_monotone (hexRegion ⟨0, 0⟩ 1) ∅ ⟨0, 0⟩ 1).2.2

/-- Round-half-away-from-zero recovers the integer nearest to an input
within strictly half a unit. -/
theorem roundAway_near (n : ℤ) (q : ℚ) (h : |q - n| < 1 / 2) : roundAway q = n := by
  have h1 : (n : ℚ) - 1 / 2 < q := by
    have := abs_lt.mp h
    linarith [this.1]
  have h2 : q < (n : ℚ) + 1 / 2 := by
    have := abs_lt.mp h
    linarith [this.2]
  unfold roundAway
  split
  · exact Int.floor_eq_iff.mpr ⟨by linarith, by linarith⟩

  · have hfl : ⌊-q + 1 / 2⌋ = -n :=
      Int.floor_eq_iff.mpr ⟨by push_cast; linarith, by push_cast; linarith⟩
    rw [hfl, neg_neg]

/-- hexx axial rounding recovers a lattice point from fractional
coordinates within a quarter unit on each axis: both axes round to the
lattice values and the correction term rounds to zero. -/
theorem hexRound_near (a b : ℤ) (x y : ℚ)
    (hx : |x - a| ≤ 1 / 4) (hy : |y - b| ≤ 1 / 4) : hexRound x y = ⟨a, b⟩ := by
  have hxa : roundAway x = a := roundAway_near a x (lt_of_le_of_lt hx (by norm_num))
  have hyb : roundAway y = b := roundAway_near b y (lt_of_le_of_lt hy (by norm_num))
  have hxm : |x - a| ≤ 1 / 4 := hx
  have hym : |y - b| ≤ 1 / 4 := hy
  have hcorr1 : roundAway ((y - b) / 2 + (x - a)) = 0 := by
    apply roundAway_near 0
    rw [Int.cast_zero, sub_zero]
    calc |(y - b) / 2 + (x - a)| ≤ |(y - b) / 2| + |x - a| := abs_add _ _
      _ = |y - b| / 2 + |x - a| := by rw [abs_div]; norm_num
      _ < 1 / 2 := by linarith
  have hcorr2 : roundAway ((x - a) / 2 + (y - b)) = 0 := by
    apply roundAway_near 0
    rw [Int.cast_zero, sub_zero]
    calc |(x - a) / 2 + (y - b)| ≤ |(x - a) / 2| + |y - b| := abs_add _ _
      _ = |x - a| / 2 + |y - b| := by rw [abs_div]; norm_num
      _ < 1 / 2 := by linarith
  unfold hexRound
  simp only [hxa, hyb]
  split
  · rw [hcorr1, add_zero]
  · rw [hcorr2, add_zero]

/-- Every hex of an enumerated hexagon region lies within the radius on
each of the three axial measures (x, y, and x + y offsets). -/
theorem hexagonList_bounds (c : Hex) (r : ℕ) (h : Hex) (hmem : h ∈ hexagonList c r) :
    |h.x - c.x| ≤ r ∧ |h.y - c.y| ≤ r ∧ |h.x + h.y - c.x - c.y| ≤ r := by
  unfold hexagonList at hmem
  obtain ⟨i, hi, hmem2⟩ := List.mem_flatMap.mp hmem
  obtain ⟨j, hj, heq⟩ := List.mem_map.mp hmem2
  rw [List.mem_range] at hi hj
  subst heq
  have hmax1 := le_max_left (-(r : ℤ)) (-((i : ℤ) - r) - r)
  have hmax2 := le_max_right (-(r : ℤ)) (-((i : ℤ) - r) - r)
  have hmin1 := min_le_left (r : ℤ) (-((i : ℤ) - r) + r)
  have hmin2 := min_le_right (r : ℤ) (-((i : ℤ) - r) + r)
  dsimp only
  rw [abs_le, abs_le, abs_le]
  rcases max_choice (-(r : ℤ)) (-((i : ℤ) - r) - r) with hm | hm <;>
    rcases min_choice (r : ℤ) (-((i : ℤ) - r) + r) with hn | hn <;>
      simp only [hm, hn] at * <;> omega

/-- The exact roundtrip-error coefficients: with the embedded f32 matrix
constants, the fractional axial coordinates of a lattice point (x, y) are
qf = Ax + By and rf = Dy, and A, B, D are within 2⁻²³ of 1, 0, 1. -/
theorem fract_coords_of_lattice (s : ℚ) (hs : s ≠ 0) (h : Hex) :
    inv0 * ((hexToWorldPos s h).x / s) + inv1 * ((hexToWorldPos s h).y / s) =
      (inv0 * fwd0) * h.x + (inv0 * fwd1 + inv1 * fwd3) * h.y ∧
    inv2 * ((hexToWorldPos s h).x / s) + inv3 * ((hexToWorldPos s h).y / s) =
      (inv3 * fwd3) * h.y := by
  unfold hexToWorldPos inv2 fwd2
  constructor
  · field_simp
    ring
  · field_simp
    ring

/-- Round-trip through the embedded world layout is the identity on every
lattice point within 20 of the origin on all three axial measures: the
fractional coordinates land within a quarter unit of the lattice point, so
axial rounding recovers it exactly. -/
theorem roundtrip_bounded (s : ℚ) (hs : s ≠ 0) (h : Hex)
    (hx : |(h.x : ℚ)| ≤ 20) (hy : |(h.y : ℚ)| ≤ 20) :
    worldPosToHex s (hexToWorldPos s h) = h := by
  obtain ⟨hq, hr⟩ := fract_coords_of_lattice s hs h
  unfold worldPosToHex
  rw [hq, hr]
  apply hexRound_near
  · have hA : |(inv0 * fwd0) - 1| ≤ 1 / 100000 := by
      unfold inv0 fwd0 sqrt3f
      rw [abs_le]
      norm_num
    have hB : |inv0 * fwd1 + inv1 * fwd3| ≤ 1 / 100000 := by
      unfold inv0 fwd1 inv1 fwd3
      rw [abs_le]
      norm_num
    calc |(inv0 * fwd0) * h.x + (inv0 * fwd1 + inv1 * fwd3) * h.y - h.x|
        = |((inv0 * fwd0) - 1) * h.x + (inv0 * fwd1 + inv1 * fwd3) * h.y| := by ring_nf
      _ ≤ |((inv0 * fwd0) - 1) * h.x| + |(inv0 * fwd1 + inv1 * fwd3) * h.y| := abs_add _ _
      _ = |(inv0 * fwd0) - 1| * |(h.x : ℚ)| + |inv0 * fwd1 + inv1 * fwd3| * |(h.y : ℚ)| := by
          rw [abs_mul, abs_mul]
      _ ≤ (1 / 100000) * 20 + (1 / 100000) * 20 := by
          apply add_le_add <;> exact mul_le_mul (by assumption) (by assumption)
            (abs_nonneg _) (by norm_num)
      _ ≤ 1 / 4 := by norm_num
  · have hD : |(inv3 * fwd3) - 1| ≤ 1 / 100000 := by
      unfold inv3 fwd3
      rw [abs_le]
      norm_num
    calc |(inv3 * fwd3) * h.y - h.y|
        = |((inv3 * fwd3) - 1) * h.y| := by ring_nf
      _ = |(inv3 * fwd3) - 1| * |(h.y : ℚ)| := abs_mul _ _
      _ ≤ (1 / 100000) * 20 := mul_le_mul hD hy (abs_nonneg _) (by norm_num)
      _ ≤ 1 / 4 := by norm_num

/-- C5: for every hex of the generated region (radius 20, point spacing 4,
the configured defaults), mapping the hex to its world position and back
through nearest-cell rounding is the identity. -/
theorem world_roundtrip_on_generated_region (h : Hex) (hmem : h ∈ hexagonList ⟨0, 0⟩ 20) :
    worldPosToHex 4 (hexToWorldPos 4 h) = h := by
  obtain ⟨hx, hy, _⟩ := hexagonList_bounds ⟨0, 0⟩ 20 h hmem
  apply roundtrip_bounded 4 (by norm_num)
  · rw [show h.x - (0 : ℤ) = h.x by ring] at hx
    calc |(h.x : ℚ)| = ((|h.x| : ℤ) : ℚ) := by push_cast; rfl
      _ ≤ ((20 : ℤ) : ℚ) := by exact_mod_cast hx
      _ = 20 := by norm_num
  · rw [show h.y - (0 : ℤ) = h.y by ring] at hy
    calc |(h.y : ℚ)| = ((|h.y| : ℤ) : ℚ) := by push_cast; rfl
      _ ≤ ((20 : ℤ) : ℚ) := by exact_mod_cast hy
      _ = 20 := by norm_num

set_option maxRecDepth 4000 in
/-- Witness for the layout round-trip at a concrete region hex. -/
theorem world_roundtrip_witness :
    worldPosToHex 4 (hexToWorldPos 4 ⟨3, -5⟩) = ⟨3, -5⟩ :=
  world_roundtrip_on_generated_region ⟨3, -5⟩ (by decide)

/-- The hexagon enumeration never repeats a hex: within a column the y
coordinates differ, and across columns the x coordinates differ. -/
theorem hexagonList_nodup (c : Hex) (r : ℕ) : (hexagonList c r).Nodup := by
  unfold hexagonList
  rw [List.nodup_flatMap]
  constructor
  · intro i _
    apply List.Nodup.map
    · intro j1 j2 hj
      simp only [Hex.mk.injEq] at hj
      omega
    · exact List.nodup_range _
  · apply List.Pairwise.imp ?_ (List.pairwise_lt_range _)
    intro i1 i2 hlt z hz1 hz2
    obtain ⟨j1, _, he1⟩ := List.mem_map.mp hz1
    obtain ⟨j2, _, he2⟩ := List.mem_map.mp hz2
    rw [← he1] at he2
    simp only [Hex.mk.injEq] at he2
    omega

/-- Folding the reveal body over a duplicate-free list of hexes none of
which is drawn yet appends, per present hex, exactly its quad and tri
petal lists: the spawned counts are the sums of the per-hex counts. -/
theorem reveal_fold_counts (F : Finset Hex) :
    ∀ (l : List Hex) (s : RevealOut), l.Nodup → (∀ h ∈ l, h ∉ s.drawn) →
      ((l.foldl (revealHexStep F) s).quads.length =
        s.quads.length +
          (l.map fun h => if h ∈ F then (quadEdgesForHex F h).length else 0).sum) ∧
      ((l.foldl (revealHexStep F) s).tris.length =
        s.tris.length +
          (l.map fun h => if h ∈ F then (triVerticesForHex F h).length else 0).sum) := by
  intro l
  induction l with
  | nil => intro s _ _; simp
  | cons h rest ih =>
    intro s hnd hfresh
    obtain ⟨hnotin, hndrest⟩ := List.nodup_cons.mp hnd
    by_cases hF : h ∈ F
    · have hnd2 : h ∉ s.drawn := hfresh h (List.mem_cons_self h rest)
      have hstep : revealHexStep F s h =
          ⟨insert h s.drawn,
           s.quads ++ (quadEdgesForHex F h).map fun e => (h, e),
           s.tris ++ (triVerticesForHex F h).map fun v => (h, v)⟩ := by
        unfold revealHexStep
        rw [if_neg (by push_neg; exact ⟨hF, hnd2⟩)]
      rw [List.foldl_cons, hstep]
      have hfresh2 : ∀ h2 ∈ rest,
          h2 ∉ (⟨insert h s.drawn,
            s.quads ++ (quadEdgesForHex F h).map fun e => (h, e),
            s.tris ++ (triVerticesForHex F h).map fun v => (h, v)⟩ : RevealOut).drawn := by
        intro h2 hh2
        simp only [Finset.mem_insert]
        push_neg
        exact ⟨fun heq => hnotin (heq ▸ hh2), hfresh h2 (List.mem_cons_of_mem h hh2)⟩
      obtain ⟨ihq, iht⟩ := ih _ hndrest hfresh2
      constructor
      · rw [ihq]
        simp only [List.length_append, List.length_map, List.map_cons, List.sum_cons, if_pos hF]
        omega
      · rw [iht]
        simp only [List.length_append, List.length_map, List.map_cons, List.sum_cons, if_pos hF]
        omega
    · have hstep : revealHexStep F s h = s := by
        unfold revealHexStep
        rw [if_pos (Or.inl hF)]
      rw [List.foldl_cons, hstep]
      obtain ⟨ihq, iht⟩ := ih s hndrest fun h2 hh2 => hfresh h2 (List.mem_cons_of_mem h hh2)
      constructor
      · rw [ihq]
        simp [hF]
      · rw [iht]
        simp [hF]

/-- The even edge directions 0, 2, 4 — the quad-ownership convention. -/
def evens3 : Finset (Fin 6) := {0, 2, 4}

/-- Interior edges of a field: the unordered pairs of adjacent hexes that
both exist, each counted once. -/
def interiorEdges (F : Finset Hex) : Finset (Sym2 Hex) :=
  ((F ×ˢ (Finset.univ : Finset (Fin 6))).filter fun p => neighborHex p.1 p.2 ∈ F).image
    fun p => Sym2.mk (p.1, neighborHex p.1 p.2)

/-- The (owner hex, even edge) pairs whose quad petal gets spawned once the
whole field is revealed. -/
def quadIndexSet (F : Finset Hex) : Finset (Hex × Fin 6) :=
  (F ×ˢ evens3).filter fun p => neighborHex p.1 p.2 ∈ F

theorem dirOffset_inj_components : ∀ e1 e2 : Fin 6,
    (dirOffset e1).x = (dirOffset e2).x → (dirOffset e1).y = (dirOffset e2).y → e1 = e2 := by
  decide

theorem dirOffset_antipodal : ∀ e1 e2 : Fin 6,
    (dirOffset e1).x + (dirOffset e2).x = 0 → (dirOffset e1).y + (dirOffset e2).y = 0 →
      e2 = e1 + 3 := by
  decide

theorem dirOffset_add_three_cancel : ∀ e : Fin 6,
    (dirOffset e).x + (dirOffset (e + 3)).x = 0 ∧
    (dirOffset e).y + (dirOffset (e + 3)).y = 0 := by
  decide

theorem evens3_add_three_not_mem : ∀ e : Fin 6, e ∈ evens3 → e + 3 ∉ evens3 := by
  decide

theorem not_evens3_add_three_mem : ∀ e : Fin 6, e ∉ evens3 → e + 3 ∈ evens3 := by
  decide

/-- Stepping to a neighbor and back across the opposite edge returns to the
starting hex. -/
theorem neighbor_neighbor_cancel (h : Hex) (e : Fin 6) :
    neighborHex (neighborHex h e) (e + 3) = h := by
  obtain ⟨hx, hy⟩ := dirOffset_add_three_cancel e
  obtain ⟨a, b⟩ := h
  simp only [neighborHex, Hex.addHex, Hex.mk.injEq]
  omega

/-- Per-hex quad count as a sum over the even directions. -/
theorem quadEdges_length_eq (F : Finset Hex) (h : Hex) :
    (quadEdgesForHex F h).length =
      ∑ e ∈ evens3, (if neighborHex h e ∈ F then 1 else 0) := by
  have hsplit : ∀ f : Fin 6 → ℕ, ∑ e ∈ evens3, f e = f 0 + f 2 + f 4 := by
    intro f
    show ∑ e ∈ ({0, 2, 4} : Finset (Fin 6)), f e = _
    rw [Finset.sum_insert (by decide), Finset.sum_insert (by decide), Finset.sum_singleton]
    omega
  rw [hsplit]
  by_cases h0 : neighborHex h 0 ∈ F <;> by_cases h2 : neighborHex h 2 ∈ F <;>
    by_cases h4 : neighborHex h 4 ∈ F <;>
      simp [quadEdgesForHex, h0, h2, h4]

/-- The total quad count over a fully revealed field, hex by hex. -/
def totalQuads (F : Finset Hex) : ℕ :=
  ∑ h ∈ F, (quadEdgesForHex F h).length

theorem totalQuads_eq_card (F : Finset Hex) : totalQuads F = (quadIndexSet F).card := by
  unfold totalQuads quadIndexSet
  rw [Finset.card_filter, Finset.sum_product]
  exact Finset.sum_congr rfl fun h _ => quadEdges_length_eq F h

/-- The even-edge ownership map is a bijection between spawned quads and
interior edges: each interior edge has exactly one even-edge owner. -/
theorem quadIndexSet_card_eq (F : Finset Hex) :
    (quadIndexSet F).card = (interiorEdges F).card := by
  apply Finset.card_bij fun p _ => Sym2.mk (p.1, neighborHex p.1 p.2)
  · intro p hp
    simp only [quadIndexSet, Finset.mem_filter, Finset.mem_product] at hp
    obtain ⟨⟨hpF, _⟩, hnF⟩ := hp
    simp only [interiorEdges, Finset.mem_image]
    refine ⟨p, ?_, rfl⟩
    simp only [Finset.mem_filter, Finset.mem_product]
    exact ⟨⟨hpF, Finset.mem_univ _⟩, hnF⟩
  · intro p1 hp1 p2 hp2 heq
    simp only [quadIndexSet, Finset.mem_filter, Finset.mem_product] at hp1 hp2
    obtain ⟨⟨hp1F, hp1e⟩, _⟩ := hp1
    obtain ⟨⟨hp2F, hp2e⟩, _⟩ := hp2
    obtain ⟨h1, e1⟩ := p1
    obtain ⟨h2, e2⟩ := p2
    rw [Sym2.eq_iff] at heq
    rcases heq with ⟨hh, hn⟩ | ⟨hh, hn⟩
    · simp only at hh hn
      subst hh
      have hex : e1 = e2 := by
        apply dirOffset_inj_components
        · have := congrArg Hex.x hn
          simp only [neighborHex, Hex.addHex] at this
          omega
        · have := congrArg Hex.y hn
          simp only [neighborHex, Hex.addHex] at this
          omega
      rw [hex]
    · simp only at hh hn
      exfalso
      have hsum : e2 = e1 + 3 := by
        apply dirOffset_antipodal
        · have hx1 := congrArg Hex.x hh
          have hx2 := congrArg Hex.x hn
          simp only [neighborHex, Hex.addHex] at hx1 hx2
          omega
        · have hy1 := congrArg Hex.y hh
          have hy2 := congrArg Hex.y hn
          simp only [neighborHex, Hex.addHex] at hy1 hy2
          omega
      rw [hsum] at hp2e
      exact evens3_add_three_not_mem e1 hp1e hp2e
  · intro edge hedge
    simp only [interiorEdges, Finset.mem_image, Finset.mem_filter, Finset.mem_product] at hedge
    obtain ⟨⟨a, e⟩, ⟨⟨haF, _⟩, hne⟩, heq⟩ := hedge
    by_cases he : e ∈ evens3
    · refine ⟨(a, e), ?_, heq⟩
      simp only [quadIndexSet, Finset.mem_filter, Finset.mem_product]
      exact ⟨⟨haF, he⟩, hne⟩
    · refine ⟨(neighborHex a e, e + 3), ?_, ?_⟩
      · simp only [quadIndexSet, Finset.mem_filter, Finset.mem_product]
        refine ⟨⟨hne, not_evens3_add_three_mem e he⟩, ?_⟩
        rw [neighbor_neighbor_cancel]
        exact haF
      · show Sym2.mk (neighborHex a e, neighborHex (neighborHex a e) (e + 3)) = edge
        rw [neighbor_neighbor_cancel, ← heq]
        exact Sym2.eq_swap

theorem dirOffset_e0 : dirOffset 0 = ⟨1, -1⟩ := rfl

theorem dirOffset_e1 : dirOffset 1 = ⟨0, -1⟩ := rfl

theorem dirOffset_e2 : dirOffset 2 = ⟨-1, 0⟩ := rfl

theorem dirOffset_e3 : dirOffset 3 = ⟨-1, 1⟩ := rfl

theorem dirOffset_e4 : dirOffset 4 = ⟨0, 1⟩ := rfl

theorem dirOffset_e5 : dirOffset 5 = ⟨1, 0⟩ := rfl

theorem finSix_0_add_1 : (0 : Fin 6) + 1 = 1 := rfl

theorem finSix_1_add_1 : (1 : Fin 6) + 1 = 2 := rfl

theorem finSix_2_add_1 : (2 : Fin 6) + 1 = 3 := rfl

theorem finSix_3_add_1 : (3 : Fin 6) + 1 = 4 := rfl

theorem finSix_4_add_1 : (4 : Fin 6) + 1 = 5 := rfl

theorem finSix_5_add_1 : (5 : Fin 6) + 1 = 0 := rfl

theorem gridVertexCoords_zero (h : Hex) :
    gridVertexCoords h 0 = (h, h.addHex (dirOffset 0), h.addHex (dirOffset 1)) := rfl

theorem gridVertexCoords_one (h : Hex) :
    gridVertexCoords h 1 = (h, h.addHex (dirOffset 1), h.addHex (dirOffset 2)) := rfl

/-- The vertex directions 0, 1 — the tri-ownership convention. -/
def zeroOne : Finset (Fin 6) := {0, 1}

/-- Interior junctions of a field: the 3-hex corner sets all of whose
incident hexes exist, each geometric junction counted once. -/
def interiorJunctions (F : Finset Hex) : Finset (Finset Hex) :=
  ((F ×ˢ (Finset.univ : Finset (Fin 6))).filter fun p => cornerFinset p.1 p.2 ⊆ F).image
    fun p => cornerFinset p.1 p.2

/-- The (owner hex, vertex 0/1) pairs whose tri petal gets spawned once the
whole field is revealed. -/
def triIndexSet (F : Finset Hex) : Finset (Hex × Fin 6) :=
  (F ×ˢ zeroOne).filter fun p => cornerFinset p.1 p.2 ⊆ F

/-- Per-hex tri count as a sum over the two owned vertex directions. -/
theorem triVertices_length_eq (F : Finset Hex) (h : Hex) (hF : h ∈ F) :
    (triVerticesForHex F h).length =
      ∑ v ∈ zeroOne, (if cornerFinset h v ⊆ F then 1 else 0) := by
  have hsplit : ∀ f : Fin 6 → ℕ, ∑ v ∈ zeroOne, f v = f 0 + f 1 := by
    intro f
    show ∑ v ∈ ({0, 1} : Finset (Fin 6)), f v = _
    rw [Finset.sum_insert (by decide), Finset.sum_singleton]
  rw [hsplit]
  by_cases hA : h.addHex (dirOffset 0) ∈ F <;>
    by_cases hB : h.addHex (dirOffset 1) ∈ F <;>
      by_cases hC : h.addHex (dirOffset 2) ∈ F <;>
        simp [triVerticesForHex, gridVertexCoords_zero, gridVertexCoords_one, cornerFinset,
          Finset.insert_subset_iff, Finset.singleton_subset_iff, finSix_0_add_1, finSix_1_add_1,
          hF, hA, hB, hC]


theorem dirOffset_k0 : dirOffset (⟨0, by omega⟩ : Fin 6) = ⟨1, -1⟩ := rfl

theorem dirOffset_k0s : dirOffset ((⟨0, by omega⟩ : Fin 6) + 1) = ⟨0, -1⟩ := rfl

theorem dirOffset_k1 : dirOffset (⟨1, by omega⟩ : Fin 6) = ⟨0, -1⟩ := rfl

theorem dirOffset_k1s : dirOffset ((⟨1, by omega⟩ : Fin 6) + 1) = ⟨-1, 0⟩ := rfl

theorem dirOffset_k2 : dirOffset (⟨2, by omega⟩ : Fin 6) = ⟨-1, 0⟩ := rfl

theorem dirOffset_k2s : dirOffset ((⟨2, by omega⟩ : Fin 6) + 1) = ⟨-1, 1⟩ := rfl

theorem dirOffset_k3 : dirOffset (⟨3, by omega⟩ : Fin 6) = ⟨-1, 1⟩ := rfl

theorem dirOffset_k3s : dirOffset ((⟨3, by omega⟩ : Fin 6) + 1) = ⟨0, 1⟩ := rfl

theorem dirOffset_k4 : dirOffset (⟨4, by omega⟩ : Fin 6) = ⟨0, 1⟩ := rfl

theorem dirOffset_k4s : dirOffset ((⟨4, by omega⟩ : Fin 6) + 1) = ⟨1, 0⟩ := rfl

theorem dirOffset_k5 : dirOffset (⟨5, by omega⟩ : Fin 6) = ⟨1, 0⟩ := rfl

theorem dirOffset_k5s : dirOffset ((⟨5, by omega⟩ : Fin 6) + 1) = ⟨1, -1⟩ := rfl

/-- Corner sets with origin-owned directions 0/1 identify their owner and
direction uniquely: equal corner sets force equal owners and directions. -/
theorem cornerFinset_inj01 (x1 y1 x2 y2 : ℤ) (v1 v2 : Fin 6)
    (hv1 : v1 = 0 ∨ v1 = 1) (hv2 : v2 = 0 ∨ v2 = 1)
    (heq : cornerFinset ⟨x1, y1⟩ v1 = cornerFinset ⟨x2, y2⟩ v2) :
    x1 = x2 ∧ y1 = y2 ∧ v1 = v2 := by
  have hm1 : (⟨x2, y2⟩ : Hex) ∈ cornerFinset ⟨x1, y1⟩ v1 := by
    rw [heq]
    simp [cornerFinset]
  have hm2 : (⟨x2, y2⟩ : Hex).addHex (dirOffset v2) ∈ cornerFinset ⟨x1, y1⟩ v1 := by
    rw [heq]
    simp [cornerFinset]
  have hm3 : (⟨x2, y2⟩ : Hex).addHex (dirOffset (v2 + 1)) ∈ cornerFinset ⟨x1, y1⟩ v1 := by
    rw [heq]
    simp [cornerFinset]
  rcases hv1 with rfl | rfl <;> rcases hv2 with rfl | rfl
  · refine ⟨?_, ?_, rfl⟩ <;>
    · simp only [cornerFinset, Hex.addHex, dirOffset_e0, dirOffset_e1, finSix_0_add_1,
        Finset.mem_insert, Finset.mem_singleton, Hex.mk.injEq] at hm1 hm2 hm3
      omega
  · exfalso
    simp only [cornerFinset, Hex.addHex, dirOffset_e0, dirOffset_e1, dirOffset_e2,
      finSix_0_add_1, finSix_1_add_1, Finset.mem_insert, Finset.mem_singleton,
      Hex.mk.injEq] at hm1 hm2 hm3
    omega
  · exfalso
    simp only [cornerFinset, Hex.addHex, dirOffset_e0, dirOffset_e1, dirOffset_e2,
      finSix_0_add_1, finSix_1_add_1, Finset.mem_insert, Finset.mem_singleton,
      Hex.mk.injEq] at hm1 hm2 hm3
    omega
  · refine ⟨?_, ?_, rfl⟩ <;>
    · simp only [cornerFinset, Hex.addHex, dirOffset_e1, dirOffset_e2, finSix_1_add_1,
        Finset.mem_insert, Finset.mem_singleton, Hex.mk.injEq] at hm1 hm2 hm3
      omega

/-- The canonical representative's direction is always 0 or 1. -/
theorem canonRep_snd (h : Hex) (v : Fin 6) :
    (canonRep h v).2 = 0 ∨ (canonRep h v).2 = 1 := by
  fin_cases v <;> simp [canonRep]

/-- The canonical origin is one of the three incident hexes of the corner. -/
theorem canonRep_fst_mem (h : Hex) (v : Fin 6) :
    (canonRep h v).1 ∈ cornerFinset h v := by
  obtain ⟨a, b⟩ := h
  fin_cases v <;>
    simp [canonRep, cornerFinset, Hex.addHex, dirOffset_e0, dirOffset_e1, dirOffset_e2,
      dirOffset_e3, dirOffset_e4, dirOffset_e5, finSix_0_add_1, finSix_1_add_1, finSix_2_add_1,
      finSix_3_add_1, finSix_4_add_1, finSix_5_add_1, Hex.mk.injEq]

/-- Canonicalization preserves the incident corner set: the canonical
representative denotes the same geometric junction. -/
theorem cornerFinset_canon (h : Hex) (v : Fin 6) :
    cornerFinset (canonRep h v).1 (canonRep h v).2 = cornerFinset h v := by
  obtain ⟨a, b⟩ := h
  fin_cases v <;>
  · ext z
    obtain ⟨zx, zy⟩ := z
    simp only [canonRep, cornerFinset, Hex.addHex, dirOffset_e0, dirOffset_e1, dirOffset_e2,
      dirOffset_e3, dirOffset_e4, dirOffset_e5, dirOffset_k0, dirOffset_k1, dirOffset_k2,
      dirOffset_k3, dirOffset_k4, dirOffset_k5, dirOffset_k0s, dirOffset_k1s, dirOffset_k2s,
      dirOffset_k3s, dirOffset_k4s, dirOffset_k5s, finSix_0_add_1, finSix_1_add_1,
      finSix_2_add_1, finSix_3_add_1, finSix_4_add_1, finSix_5_add_1, Finset.mem_insert,
      Finset.mem_singleton, Hex.mk.injEq]
    try omega

theorem zeroOne_mem_cases : ∀ v : Fin 6, v ∈ zeroOne → v = 0 ∨ v = 1 := by
  decide

theorem zeroOne_mem_of_cases : ∀ v : Fin 6, v = 0 ∨ v = 1 → v ∈ zeroOne := by
  decide

/-- The total tri count over a fully revealed field, hex by hex. -/
def totalTris (F : Finset Hex) : ℕ :=
  ∑ h ∈ F, (triVerticesForHex F h).length

theorem totalTris_eq_card (F : Finset Hex) : totalTris F = (triIndexSet F).card := by
  unfold totalTris triIndexSet
  rw [Finset.card_filter, Finset.sum_product]
  exact Finset.sum_congr rfl fun h hF => triVertices_length_eq F h hF

/-- The canonical-origin ownership map is a bijection between spawned tris
and interior junctions: each junction has exactly one owner among its
three incident hexes, with vertex direction 0 or 1. -/
theorem triIndexSet_card_eq (F : Finset Hex) :
    (triIndexSet F).card = (interiorJunctions F).card := by
  apply Finset.card_bij fun p _ => cornerFinset p.1 p.2
  · intro p hp
    simp only [triIndexSet, Finset.mem_filter, Finset.mem_product] at hp
    obtain ⟨⟨hpF, _⟩, hsub⟩ := hp
    simp only [interiorJunctions, Finset.mem_image]
    refine ⟨p, ?_, rfl⟩
    simp only [Finset.mem_filter, Finset.mem_product]
    exact ⟨⟨hpF, Finset.mem_univ _⟩, hsub⟩
  · intro p1 hp1 p2 hp2 heq
    simp only [triIndexSet, Finset.mem_filter, Finset.mem_product] at hp1 hp2
    obtain ⟨⟨hp1F, hp1v⟩, _⟩ := hp1
    obtain ⟨⟨hp2F, hp2v⟩, _⟩ := hp2
    obtain ⟨⟨x1, y1⟩, v1⟩ := p1
    obtain ⟨⟨x2, y2⟩, v2⟩ := p2
    obtain ⟨hx, hy, hv⟩ := cornerFinset_inj01 x1 y1 x2 y2 v1 v2
      (zeroOne_mem_cases v1 hp1v) (zeroOne_mem_cases v2 hp2v) heq
    simp only [Prod.mk.injEq, Hex.mk.injEq]
    exact ⟨⟨hx, hy⟩, hv⟩
  · intro j hj
    simp only [interiorJunctions, Finset.mem_image, Finset.mem_filter, Finset.mem_product] at hj
    obtain ⟨⟨a, v⟩, ⟨⟨haF, _⟩, hsub⟩, himg⟩ := hj
    refine ⟨canonRep a v, ?_, ?_⟩
    · simp only [triIndexSet, Finset.mem_filter, Finset.mem_product]
      refine ⟨⟨?_, ?_⟩, ?_⟩
      · exact hsub (canonRep_fst_mem a v)
      · exact zeroOne_mem_of_cases _ (canonRep_snd a v)
      · rw [cornerFinset_canon]
        exact hsub
    · rw [cornerFinset_canon]
      exact himg

/-- C3: over a generated region of radius at least 3, revealing every hex
spawns exactly one quad petal per interior edge and exactly one tri petal
per interior 3-hex junction — the even-edge and canonical-origin ownership
conventions cover every interior seam exactly once. -/
theorem petal_counts_match_interior_seams (r : ℕ) (hr : 3 ≤ r) :
    (reveal (hexRegion ⟨0, 0⟩ r) ∅ ⟨0, 0⟩ r).quads.length =
      (interiorEdges (hexRegion ⟨0, 0⟩ r)).card ∧
    (reveal (hexRegion ⟨0, 0⟩ r) ∅ ⟨0, 0⟩ r).tris.length =
      (interiorJunctions (hexRegion ⟨0, 0⟩ r)).card := by
  obtain ⟨hq, ht⟩ := reveal_fold_counts (hexRegion ⟨0, 0⟩ r) (hexagonList ⟨0, 0⟩ r)
    ⟨∅, [], []⟩ (hexagonList_nodup _ _) (by simp)
  have hmapq : (hexagonList ⟨0, 0⟩ r).map
      (fun h => if h ∈ hexRegion ⟨0, 0⟩ r then (quadEdgesForHex (hexRegion ⟨0, 0⟩ r) h).length
        else 0) =
      (hexagonList ⟨0, 0⟩ r).map (fun h => (quadEdgesForHex (hexRegion ⟨0, 0⟩ r) h).length) :=
    List.map_congr_left fun h hh => if_pos (List.mem_toFinset.mpr hh)
  have hmapt : (hexagonList ⟨0, 0⟩ r).map
      (fun h => if h ∈ hexRegion ⟨0, 0⟩ r then (triVerticesForHex (hexRegion ⟨0, 0⟩ r) h).length
        else 0) =
      (hexagonList ⟨0, 0⟩ r).map (fun h => (triVerticesForHex (hexRegion ⟨0, 0⟩ r) h).length) :=
    List.map_congr_left fun h hh => if_pos (List.mem_toFinset.mpr hh)
  constructor
  · show ((hexagonList ⟨0, 0⟩ r).foldl (revealHexStep (hexRegion ⟨0, 0⟩ r))
      ⟨∅, [], []⟩).quads.length = _
    rw [hq, hmapq, ← List.sum_toFinset _ (hexagonList_nodup ⟨0, 0⟩ r)]
    show 0 + totalQuads (hexRegion ⟨0, 0⟩ r) = _
    rw [zero_add, totalQuads_eq_card, quadIndexSet_card_eq]
  · show ((hexagonList ⟨0, 0⟩ r).foldl (revealHexStep (hexRegion ⟨0, 0⟩ r))
      ⟨∅, [], []⟩).tris.length = _
    rw [ht, hmapt, ← List.sum_toFinset _ (hexagonList_nodup ⟨0, 0⟩ r)]
    show 0 + totalTris (hexRegion ⟨0, 0⟩ r) = _
    rw [zero_add, totalTris_eq_card, triIndexSet_card_eq]

/-- Witness for the dedup-count claim at radius 3: the spawned quad and tri
counts equal the interior edge and junction counts of the radius-3 region. -/
theorem petal_counts_witness :
    (reveal (hexRegion ⟨0, 0⟩ 3) ∅ ⟨0, 0⟩ 3).quads.length =
      (interiorEdges (hexRegion ⟨0, 0⟩ 3)).card ∧
    (reveal (hexRegion ⟨0, 0⟩ 3) ∅ ⟨0, 0⟩ 3).tris.length =
      (interiorJunctions (hexRegion ⟨0, 0⟩ 3)).card :=
  petal_counts_match_interior_seams 3 (by norm_num)
